import Mathlib

/-!
Verification of the owl HTML query library (owl.go, errors in the second
source file, of this repository).

The library is a query layer over a parsed HTML tree.  We embed the tree
shallowly: an `HNode` carries the node kind, the `Data` string, the ordered
attribute list and its children.  Go's `html.Node` links children as a
`FirstChild` plus a `NextSibling` chain, which we model by the mutually
inductive `HForest` (a sibling chain).  Go functions that can panic (nil
dereference, index out of range) are embedded with result type
`Except GoPanic`.  Machine behaviour the code never reaches is preserved,
not cleaned up: the embedding follows owl.go line by line.
-/

set_option autoImplicit false
set_option linter.dupNamespace false

namespace Owl

/-- Node kinds of the external html package (html.DocumentNode etc.). -/
inductive NType where
  | document
  | element
  | text
  | comment
  | doctype
deriving DecidableEq, Repr

/-- html.Attribute: one attribute key/value pair of a node. -/
structure HAttr where
  key : String
  val : String
deriving DecidableEq, Repr

mutual
/-- html.Node: kind, Data (tag name for elements, content for text and
comments), the ordered attribute list Attr, and the children.  The
FirstChild pointer plus the NextSibling chain of the children is modelled
by an `HForest`. -/
inductive HNode where
  | mk (type : NType) (data : String) (attrs : List HAttr) (children : HForest)
deriving Repr

/-- A sibling chain of nodes: nil models a nil node pointer, cons a node
together with the chain hanging off its NextSibling pointer. -/
inductive HForest where
  | nil
  | cons (head : HNode) (tail : HForest)
deriving Repr
end

def HNode.type : HNode → NType
  | .mk t _ _ _ => t

def HNode.data : HNode → String
  | .mk _ d _ _ => d

def HNode.attrs : HNode → List HAttr
  | .mk _ _ a _ => a

def HNode.children : HNode → HForest
  | .mk _ _ _ cs => cs

mutual
def decEqHNode : (a b : HNode) → Decidable (a = b)
  | .mk t d a1 cs, .mk t2 d2 a2 cs2 =>
    if h1 : t = t2 then
      if h2 : d = d2 then
        if h3 : a1 = a2 then
          match decEqHForest cs cs2 with
          | isTrue h4 => isTrue (by rw [h1, h2, h3, h4])
          | isFalse h4 => isFalse (fun h => by injection h; contradiction)
        else isFalse (fun h => by injection h; contradiction)
      else isFalse (fun h => by injection h; contradiction)
    else isFalse (fun h => by injection h; contradiction)

def decEqHForest : (a b : HForest) → Decidable (a = b)
  | .nil, .nil => isTrue rfl
  | .nil, .cons _ _ => isFalse (fun h => HForest.noConfusion h)
  | .cons _ _, .nil => isFalse (fun h => HForest.noConfusion h)
  | .cons c r, .cons c2 r2 =>
    match decEqHNode c c2, decEqHForest r r2 with
    | isTrue h1, isTrue h2 => isTrue (by rw [h1, h2])
    | isFalse h1, _ => isFalse (fun h => by injection h; contradiction)
    | _, isFalse h2 => isFalse (fun h => by injection h; contradiction)
end

instance : DecidableEq HNode := decEqHNode

instance : DecidableEq HForest := decEqHForest

/-- Which Go panic a fallible embedded function hit. -/
inductive GoPanic where
  | nilDeref
  | indexOutOfRange
deriving DecidableEq, Repr

/-- ErrorType of the error source file: kinds of errors possible from owl. -/
inductive ErrorType where
  | ErrUnableToParse
  | ErrElementNotFound
  | ErrElementsNotFound
  | ErrNoNextSibling
  | ErrNoPreviousSibling
  | ErrNoNextElementSibling
  | ErrNoPreviousElementSibling
  | ErrCreatingGetRequest
  | ErrInGetRequest
  | ErrCreatingPostRequest
  | ErrMarshallingPostRequest
  | ErrReadingResponse
deriving DecidableEq, Repr

/-- The Error struct of the error source file: a Type and a wrapped msg,
the latter modelled by its message string. -/
structure OwlError where
  type : ErrorType
  msg : String
deriving DecidableEq, Repr

/-- Root: the single query result struct of owl.go.  The Node pointer is
an Option (none models a nil pointer), Error likewise. -/
structure Root where
  Node : Option HNode
  NodeValue : String
  Error : Option OwlError
deriving DecidableEq, Repr

/-- Roots: the collection query result struct of owl.go. Len is the Go
int field (it and the list length are set independently by the code). -/
structure Roots where
  Roots : List Root
  Len : Int
  Error : Option OwlError
deriving DecidableEq, Repr

/-- unicode.IsSpace as used by strings.Fields, on the Latin-1 range (the
rarely used higher Unicode space code points are omitted; attribute class
tokens are separated by the characters below). -/
def goIsSpace (c : Char) : Bool :=
  c = ' ' || c = '\t' || c = '\n' || c = '\x0b' || c = '\x0c' || c = '\r' ||
    c = '\x85' || c = '\xa0'

/-- Accumulator pass of goFields over the character list: cur holds the
characters of the field being read, in reverse. -/
def goFieldsAux : List Char → List Char → List String
  | [], cur => if cur.isEmpty then [] else [String.mk cur.reverse]
  | c :: rest, cur =>
    if goIsSpace c then
      if cur.isEmpty then goFieldsAux rest []
      else String.mk cur.reverse :: goFieldsAux rest []
    else goFieldsAux rest (c :: cur)

/-- strings.Fields: splits around each run of one or more white space
characters, yielding the non-empty substrings in between. -/
def goFields (s : String) : List String :=
  goFieldsAux s.toList []

/-- matchElementName of owl.go: name == "" or name == n.Data. -/
def matchElementName (n : HNode) (name : String) : Bool :=
  name == "" || name == n.data

/-- attributeAndValueEquals of owl.go: attr.Key equals the searched name
(a keyword in Lean, hence aname here) and attr.Val equals value. -/
def attributeAndValueEquals (attr : HAttr) (aname value : String) : Bool :=
  attr.key == aname && attr.val == value

/-- attributeContainsValue of owl.go: if attr.Key equals the searched
name, scan the fields of attr.Val for one equal to value. -/
def attributeContainsValue (attr : HAttr) (aname value : String) : Bool :=
  if attr.key == aname then
    (goFields attr.val).any (fun attrVal => attrVal == value)
  else false

/-- The attribute loop of findOnce: for each attr in order the code reads
args at index 1 and index 2 (a Go index-out-of-range panic when absent,
which happens when len(args) == 2 and the node has an attribute) and
returns the node at the first qualifying pair. -/
def attrLoopOnce (attrs : List HAttr) (args : List String) (strict : Bool) :
    Except GoPanic Bool :=
  match attrs with
  | [] => .ok false
  | attr :: rest =>
    match args.get? 1, args.get? 2 with
    | some searchAttrName, some searchAttrVal =>
      if (strict && attributeAndValueEquals attr searchAttrName searchAttrVal)
          || (!strict && attributeContainsValue attr searchAttrName searchAttrVal) then
        .ok true
      else attrLoopOnce rest args strict
    | _, _ => .error .indexOutOfRange

/-- The candidate test of findOnce on the node currently visited:
element kind, tag name (args index 0, evaluated only for element nodes
thanks to Go short-circuit), then the argument-count cases of the code:
1 < len(args) < 4 runs the attribute loop, len(args) == 1 matches
unconditionally, and every other count falls through to no match. -/
def nodeCheck (n : HNode) (args : List String) (strict : Bool) :
    Except GoPanic Bool :=
  if n.type = NType.element then
    match args.get? 0 with
    | none => .error .indexOutOfRange
    | some a0 =>
      if matchElementName n a0 then
        if 1 < args.length ∧ args.length < 4 then
          attrLoopOnce n.attrs args strict
        else if args.length = 1 then .ok true
        else .ok false
      else .ok false
  else .ok false

mutual
/-- findOnce of owl.go: when uni is set, test the node itself, then walk
the children with uni true, returning the first hit. -/
def findOnce (n : HNode) (args : List String) (uni : Bool) (strict : Bool) :
    Except GoPanic (Option HNode) :=
  match n with
  | .mk t d a cs =>
    if uni then
      match nodeCheck (.mk t d a cs) args strict with
      | .error p => .error p
      | .ok true => .ok (some (.mk t d a cs))
      | .ok false => findOnceList cs args strict
    else findOnceList cs args strict

/-- The child loop of findOnce: c := n.FirstChild; c = c.NextSibling. -/
def findOnceList (cs : HForest) (args : List String) (strict : Bool) :
    Except GoPanic (Option HNode) :=
  match cs with
  | .nil => .ok none
  | .cons c rest =>
    match findOnce c args true strict with
    | .error p => .error p
    | .ok (some p) => .ok (some p)
    | .ok none => findOnceList rest args strict
end

/-- The attribute loop of findAllofem.  Unlike findOnce it does not stop
at the first qualifying pair: the node is appended once per qualifying
attribute pair; we return how many times. -/
def attrLoopAll (attrs : List HAttr) (args : List String) (strict : Bool) :
    Except GoPanic Nat :=
  match attrs with
  | [] => .ok 0
  | attr :: rest =>
    match args.get? 1, args.get? 2 with
    | some searchAttrName, some searchAttrVal =>
      match attrLoopAll rest args strict with
      | .error p => .error p
      | .ok k =>
        if (strict && attributeAndValueEquals attr searchAttrName searchAttrVal)
            || (!strict && attributeContainsValue attr searchAttrName searchAttrVal) then
          .ok (k + 1)
        else .ok k
    | _, _ => .error .indexOutOfRange

/-- The candidate test of findAllofem: how many copies of the visited node
the closure appends. -/
def nodeCheckAll (n : HNode) (args : List String) (strict : Bool) :
    Except GoPanic Nat :=
  if n.type = NType.element then
    match args.get? 0 with
    | none => .error .indexOutOfRange
    | some a0 =>
      if matchElementName n a0 then
        if 1 < args.length ∧ args.length < 4 then
          attrLoopAll n.attrs args strict
        else if args.length = 1 then .ok 1
        else .ok 0
      else .ok 0
  else .ok 0

mutual
/-- The recursive closure f of findAllofem: appends the copies of the
visited node (when uni is set), then walks the children with uni true. -/
def findAllGo (n : HNode) (args : List String) (uni : Bool) (strict : Bool) :
    Except GoPanic (List HNode) :=
  match n with
  | .mk t d a cs =>
    match (if uni then nodeCheckAll (.mk t d a cs) args strict else .ok 0) with
    | .error p => .error p
    | .ok k =>
      match findAllList cs args strict with
      | .error p => .error p
      | .ok rest => .ok (List.replicate k (.mk t d a cs) ++ rest)

/-- The child loop of the closure f of findAllofem. -/
def findAllList (cs : HForest) (args : List String) (strict : Bool) :
    Except GoPanic (List HNode) :=
  match cs with
  | .nil => .ok []
  | .cons c rest =>
    match findAllGo c args true strict with
    | .error p => .error p
    | .ok l =>
      match findAllList rest args strict with
      | .error p => .error p
      | .ok l2 => .ok (l ++ l2)
end

/-- findAllofem of owl.go: f(n, args, false). -/
def findAllofem (n : HNode) (args : List String) (strict : Bool) :
    Except GoPanic (List HNode) :=
  findAllGo n args false strict

/-- Find of owl.go.  A nil r.Node is passed into findOnce, whose child
loop dereferences n.FirstChild: a nil pointer panic. -/
def Root.Find (r : Root) (args : List String) : Except GoPanic Root :=
  match r.Node with
  | none => .error .nilDeref
  | some n =>
    match findOnce n args false false with
    | .error p => .error p
    | .ok none =>
      .ok ⟨none, "", some ⟨.ErrElementNotFound, "given element and attriabutes not found"⟩⟩
    | .ok (some temp) => .ok ⟨some temp, temp.data, none⟩

/-- FindStrict of owl.go: as Find with the strict flag set. -/
def Root.FindStrict (r : Root) (args : List String) : Except GoPanic Root :=
  match r.Node with
  | none => .error .nilDeref
  | some n =>
    match findOnce n args false true with
    | .error p => .error p
    | .ok none =>
      .ok ⟨none, "", some ⟨.ErrElementNotFound, "given element and attriabutes not found"⟩⟩
    | .ok (some temp) => .ok ⟨some temp, temp.data, none⟩

/-- FindAll of owl.go: on an empty result the zero-valued Roots with the
ErrElementsNotFound error (its Len field stays 0), otherwise the wrapped
nodes with a nil error. -/
def Root.FindAll (r : Root) (args : List String) : Except GoPanic Roots :=
  match r.Node with
  | none => .error .nilDeref
  | some n =>
    match findAllofem n args false with
    | .error p => .error p
    | .ok temp =>
      if temp.length = 0 then
        .ok ⟨[], 0, some ⟨.ErrElementsNotFound, "no elements or attriabutes found"⟩⟩
      else
        .ok ⟨temp.map (fun t => ⟨some t, t.data, none⟩), temp.length, none⟩

/-- FindAllStrict of owl.go.  Note the empty-result branch: it formats a
message from args (reading args at index 0, a panic when args is empty)
and uses the singular ErrElementNotFound kind. -/
def Root.FindAllStrict (r : Root) (args : List String) : Except GoPanic Roots :=
  match r.Node with
  | none => .error .nilDeref
  | some n =>
    match findAllofem n args true with
    | .error p => .error p
    | .ok temp =>
      if temp.length = 0 then
        match args with
        | [] => .error .indexOutOfRange
        | a0 :: rest =>
          .ok ⟨[], 0, some ⟨.ErrElementNotFound,
            "element \x60" ++ a0 ++ "\x60 with attributes \x60" ++
              String.intercalate " " rest ++ "\x60 not found"⟩⟩
      else
        .ok ⟨temp.map (fun t => ⟨some t, t.data, none⟩), temp.length, none⟩

/-- First of owl.go: rs.Roots[0], with no emptiness guard. -/
def Roots.First (rs : Owl.Roots) : Except GoPanic Root :=
  match rs.Roots.get? 0 with
  | some r => .ok r
  | none => .error .indexOutOfRange

/-- Last of owl.go: rs.Roots[rs.Len-1], with no emptiness guard (a Go
slice index must satisfy 0 <= i < len). -/
def Roots.Last (rs : Owl.Roots) : Except GoPanic Root :=
  if rs.Len - 1 < 0 then .error .indexOutOfRange
  else
    match rs.Roots.get? (rs.Len - 1).toNat with
    | some r => .ok r
    | none => .error .indexOutOfRange

/-- The child loop of Children: appends a wrapper per child and refreshes
Len; the Error field of the accumulator is never written (it keeps the
zero value nil). -/
def childrenFold (cs : HForest) (acc : Roots) : Roots :=
  match cs with
  | .nil => acc
  | .cons c rest =>
    childrenFold rest
      ⟨acc.Roots ++ [⟨some c, c.data, none⟩], acc.Roots.length + 1, acc.Error⟩

/-- Children of owl.go: starts from the zero-valued Roots and folds the
child chain of r.Node (dereferenced: nil panics). -/
def Root.Children (r : Root) : Except GoPanic Roots :=
  match r.Node with
  | none => .error .nilDeref
  | some n => .ok (childrenFold n.children ⟨[], 0, none⟩)

/-- FindNextSibling of owl.go, as a function of the NextSibling chain of
r.Node (nil modelled by the empty forest). -/
def FindNextSibling (next : HForest) : Root :=
  match next with
  | .nil => ⟨none, "", some ⟨.ErrNoNextSibling, "no next sibling found"⟩⟩
  | .cons s _ => ⟨some s, s.data, none⟩

/-- FindPrevSibling of owl.go, as a function of the PrevSibling chain of
r.Node (nearest previous sibling first).  The source wraps its failure in
ErrNoNextSibling. -/
def FindPrevSibling (prev : HForest) : Root :=
  match prev with
  | .nil => ⟨none, "", some ⟨.ErrNoNextSibling, "no previous sibling found"⟩⟩
  | .cons s _ => ⟨some s, s.data, none⟩

/-- FindNextElementSibling of owl.go over the NextSibling chain: stop at
the first element node, recurse past others; the failure at the end of
the chain is wrapped in ErrNoNextSibling by the source. -/
def FindNextElementSibling (next : HForest) : Root :=
  match next with
  | .nil => ⟨none, "", some ⟨.ErrNoNextSibling, "no next element sibling found"⟩⟩
  | .cons s rest =>
    if s.type = NType.element then ⟨some s, s.data, none⟩
    else FindNextElementSibling rest

/-- FindPrevElementSibling of owl.go over the PrevSibling chain (nearest
first); the failure is wrapped in ErrNoNextSibling by the source. -/
def FindPrevElementSibling (prev : HForest) : Root :=
  match prev with
  | .nil => ⟨none, "", some ⟨.ErrNoNextSibling, "no previous element sibling found"⟩⟩
  | .cons s rest =>
    if s.type = NType.element then ⟨some s, s.data, none⟩
    else FindPrevElementSibling rest

/-- The character class abbreviated in Go regexp syntax by a backslash-s:
tab, newline, form feed, carriage return, space. -/
def goRegexpWsChar (c : Char) : Bool :=
  c = '\t' || c = '\n' || c = '\x0c' || c = '\r' || c = ' '

/-- MatchString of the anchored whitespace-plus pattern compiled in Text:
holds exactly when the string is non-empty and all characters are in the
whitespace class. -/
def wsOnlyMatch (s : String) : Bool :=
  !(s == "") && s.toList.all goRegexpWsChar

/-- The closure f of Text.  k is the captured r.Node.FirstChild; the
parameter n of f is a position in the sibling chain, modelled as the
suffix of the chain starting at n (empty = nil pointer).  The function
body has two statements.  First: for a non-nil non-text n, step n to
n.NextSibling, returning the empty string when that is nil, otherwise
calling f on it and DISCARDING its value (only a panic inside it would
propagate, hence the error bind).  Second (inlined below once per way
the variable n can be positioned when it is reached): when k is non-nil
and k.Data matches the whitespace-only pattern, step n to n.NextSibling
again (a nil n is dereferenced: panic), return the empty string when the
stepped n is nil, else call f on it discarding the value; then fall
through and return k.Data, whatever node kind k had; when k is nil,
return the empty string. -/
def textF (k : Option HNode) : HForest → Except GoPanic String
  | .nil =>
    match k with
    | none => .ok ""
    | some kn =>
      if wsOnlyMatch kn.data then .error .nilDeref
      else .ok kn.data
  | .cons p rest =>
    if p.type ≠ NType.text then
      match rest with
      | .nil => .ok ""
      | .cons q rest2 =>
        match textF k (.cons q rest2) with
        | .error e => .error e
        | .ok _ =>
          match k with
          | none => .ok ""
          | some kn =>
            if wsOnlyMatch kn.data then
              match rest2 with
              | .nil => .ok ""
              | .cons q2 rest3 =>
                match textF k (.cons q2 rest3) with
                | .error e => .error e
                | .ok _ => .ok kn.data
            else .ok kn.data
    else
      match k with
      | none => .ok ""
      | some kn =>
        if wsOnlyMatch kn.data then
          match rest with
          | .nil => .ok ""
          | .cons q rest2 =>
            match textF k (.cons q rest2) with
            | .error e => .error e
            | .ok _ => .ok kn.data
        else .ok kn.data

/-- Text of owl.go: k := r.Node.FirstChild (nil r.Node panics); the
result is f(k), where the initial position of f is the whole child
chain. -/
def Root.Text (r : Root) : Except GoPanic String :=
  match r.Node with
  | none => .error .nilDeref
  | some n => textF (match n.children with | .nil => none | .cons c _ => some c) n.children

mutual
/-- Document order of a subtree: the node, then its children's subtrees
left to right (pre-order depth-first). -/
def preorder (n : HNode) : List HNode :=
  match n with
  | .mk t d a cs => .mk t d a cs :: preorderList cs

/-- Document order of a sibling chain: each subtree exhausted before the
next sibling. -/
def preorderList (cs : HForest) : List HNode :=
  match cs with
  | .nil => []
  | .cons c rest => preorder c ++ preorderList rest
end

/-- The proper descendants of a node in document order: the subtrees of
its children (the node itself excluded). -/
def properDescendants (n : HNode) : List HNode :=
  preorderList n.children

/-- Specification-side candidate predicate for a well-formed query (a tag
alone, or a tag plus one attribute name/value pair): element kind, tag
equal or wildcard, and when the pair is present at least one qualifying
attribute under the selected comparison. -/
def nodeMatches (n : HNode) (args : List String) (strict : Bool) : Bool :=
  n.type = NType.element &&
    match args with
    | [tag] => matchElementName n tag
    | [tag, aname, aval] =>
      matchElementName n tag &&
        n.attrs.any (fun attr =>
          (strict && attributeAndValueEquals attr aname aval)
            || (!strict && attributeContainsValue attr aname aval))
    | _ => false

/-- The matches of a query below a node, in document order. -/
def docMatches (n : HNode) (args : List String) (strict : Bool) : List HNode :=
  (properDescendants n).filter (fun m => nodeMatches m args strict)

/-- Invariant of a single query result: a node with a nil error, or no
node with an error, never both and never neither. -/
def singleInvariant (r : Root) : Prop :=
  (r.Node.isSome ∧ r.Error = none) ∨ (r.Node = none ∧ r.Error.isSome)

/-- Invariant claimed of a collection query result: the error is present
exactly when the sequence is empty. -/
def collInvariant (rs : Roots) : Prop :=
  rs.Error.isSome ↔ rs.Roots = []

mutual
theorem mem_preorder_sizeOf (n m : HNode) (h : m ∈ preorder n) :
    sizeOf m ≤ sizeOf n := by
  cases n with
  | mk t d a cs =>
    rw [preorder, List.mem_cons] at h
    rcases h with h | h
    · exact le_of_eq (by rw [h])
    · have := mem_preorderList_sizeOf cs m h
      simp only [HNode.mk.sizeOf_spec]
      omega

theorem mem_preorderList_sizeOf (cs : HForest) (m : HNode) (h : m ∈ preorderList cs) :
    sizeOf m < sizeOf cs := by
  cases cs with
  | nil => simp [preorderList] at h
  | cons c rest =>
    rw [preorderList, List.mem_append] at h
    rcases h with h | h
    · have := mem_preorder_sizeOf c m h
      simp only [HForest.cons.sizeOf_spec]
      omega
    · have := mem_preorderList_sizeOf rest m h
      simp only [HForest.cons.sizeOf_spec]
      omega
end

theorem mem_properDescendants_ne (n m : HNode) (h : m ∈ properDescendants n) :
    m ≠ n := by
  intro heq
  subst heq
  cases m with
  | mk t d a cs =>
    have := mem_preorderList_sizeOf cs (.mk t d a cs) h
    simp only [HNode.mk.sizeOf_spec] at this
    omega

mutual
theorem findOnce_mem (n : HNode) (args : List String) (strict : Bool) (m : HNode)
    (h : findOnce n args true strict = .ok (some m)) : m ∈ preorder n := by
  cases n with
  | mk t d a cs =>
    rw [findOnce] at h
    simp only [if_true] at h
    cases hnc : nodeCheck (.mk t d a cs) args strict with
    | error p => simp [hnc] at h
    | ok b =>
      cases b with
      | true =>
        simp only [hnc] at h
        rw [preorder, List.mem_cons]
        left
        exact (Option.some.injEq .. ▸ (Except.ok.injEq .. ▸ h)).symm
      | false =>
        simp only [hnc] at h
        rw [preorder, List.mem_cons]
        right
        exact findOnceList_mem cs args strict m h

theorem findOnceList_mem (cs : HForest) (args : List String) (strict : Bool) (m : HNode)
    (h : findOnceList cs args strict = .ok (some m)) : m ∈ preorderList cs := by
  cases cs with
  | nil => simp [findOnceList] at h
  | cons c rest =>
    rw [findOnceList] at h
    rw [preorderList, List.mem_append]
    cases hf : findOnce c args true strict with
    | error p => simp [hf] at h
    | ok o =>
      cases o with
      | some p =>
        simp only [hf, Except.ok.injEq, Option.some.injEq] at h
        left
        exact h ▸ findOnce_mem c args strict p hf
      | none =>
        simp only [hf] at h
        right
        exact findOnceList_mem rest args strict m h
end

mutual
theorem findAllGo_mem (n : HNode) (args : List String) (strict : Bool) (l : List HNode)
    (h : findAllGo n args true strict = .ok l) : ∀ m ∈ l, m ∈ preorder n := by
  intro m hm
  cases n with
  | mk t d a cs =>
    rw [findAllGo] at h
    simp only [if_true] at h
    cases hnc : nodeCheckAll (.mk t d a cs) args strict with
    | error p => simp [hnc] at h
    | ok k =>
      simp only [hnc] at h
      cases hl : findAllList cs args strict with
      | error p => simp [hl] at h
      | ok rest =>
        simp only [hl, Except.ok.injEq] at h
        subst h
        rw [List.mem_append] at hm
        rw [preorder, List.mem_cons]
        rcases hm with hm | hm
        · left
          exact List.eq_of_mem_replicate hm
        · right
          exact findAllList_mem cs args strict rest hl m hm

theorem findAllList_mem (cs : HForest) (args : List String) (strict : Bool) (l : List HNode)
    (h : findAllList cs args strict = .ok l) : ∀ m ∈ l, m ∈ preorderList cs := by
  intro m hm
  cases cs with
  | nil =>
    rw [findAllList] at h
    simp only [Except.ok.injEq] at h
    subst h
    simp at hm
  | cons c rest =>
    rw [findAllList] at h
    cases hf : findAllGo c args true strict with
    | error p => simp [hf] at h
    | ok l1 =>
      simp only [hf] at h
      cases hr : findAllList rest args strict with
      | error p => simp [hr] at h
      | ok l2 =>
        simp only [hr, Except.ok.injEq] at h
        subst h
        rw [List.mem_append] at hm
        rw [preorderList, List.mem_append]
        rcases hm with hm | hm
        · left
          exact findAllGo_mem c args strict l1 hf m hm
        · right
          exact findAllList_mem rest args strict l2 hr m hm
end

/-- C2: for every starting node and every query, single or multi, strict
or loose, a returned match is a proper descendant of the starting node
(a member of the document-order list of the children's subtrees), and in
particular never the starting node itself.  findOnce and findAllofem are
entered with uni false, so the starting node is never matched, also when
the query is invoked on the document root. -/
theorem search_returns_only_proper_descendants :
    (∀ n args strict m, findOnce n args false strict = Except.ok (some m) →
        m ∈ properDescendants n ∧ m ≠ n) ∧
    (∀ n args strict l, findAllofem n args strict = Except.ok l →
        ∀ m ∈ l, m ∈ properDescendants n ∧ m ≠ n) := by
  constructor
  · intro n args strict m h
    cases n with
    | mk t d a cs =>
      rw [findOnce] at h
      simp only [Bool.false_eq_true, if_false] at h
      have hmem : m ∈ properDescendants (.mk t d a cs) := by
        rw [properDescendants, HNode.children]
        exact findOnceList_mem cs args strict m h
      exact ⟨hmem, mem_properDescendants_ne _ m hmem⟩
  · intro n args strict l h m hm
    cases n with
    | mk t d a cs =>
      rw [findAllofem, findAllGo] at h
      simp only [Bool.false_eq_true, if_false] at h
      cases hl : findAllList cs args strict with
      | error p => simp [hl] at h
      | ok rest =>
        simp only [hl, List.replicate_zero, List.nil_append, Except.ok.injEq] at h
        subst h
        have hmem : m ∈ properDescendants (.mk t d a cs) := by
          rw [properDescendants, HNode.children]
          exact findAllList_mem cs args strict rest hl m hm
        exact ⟨hmem, mem_properDescendants_ne _ m hmem⟩

/-- C2 witness: Find invoked on a one-element document returns its div
child, a proper descendant distinct from the root. -/
theorem search_returns_only_proper_descendants_witness :
    (HNode.mk .element "div" [] .nil) ∈
        properDescendants (.mk .element "html" [] (.cons (.mk .element "div" [] .nil) .nil)) ∧
      (HNode.mk .element "div" [] .nil) ≠
        (.mk .element "html" [] (.cons (.mk .element "div" [] .nil) .nil)) :=
  search_returns_only_proper_descendants.1
    (.mk .element "html" [] (.cons (.mk .element "div" [] .nil) .nil))
    ["div"] false (.mk .element "div" [] .nil) rfl

theorem attrLoopOnce_eq_any (attrs : List HAttr) (a0 a1 a2 : String) (strict : Bool) :
    attrLoopOnce attrs [a0, a1, a2] strict =
      .ok (attrs.any (fun attr =>
        (strict && attributeAndValueEquals attr a1 a2)
          || (!strict && attributeContainsValue attr a1 a2))) := by
  induction attrs with
  | nil => rfl
  | cons attr rest ih =>
    rw [attrLoopOnce]
    simp only [List.get?]
    by_cases hp : (strict && attributeAndValueEquals attr a1 a2)
        || (!strict && attributeContainsValue attr a1 a2)
    · simp [hp]
    · simp [hp, ih]

theorem nodeCheck_eq_nodeMatches (n : HNode) (args : List String) (strict : Bool)
    (h : args.length = 1 ∨ args.length = 3) :
    nodeCheck n args strict = .ok (nodeMatches n args strict) := by
  rcases h with h | h
  · obtain ⟨tag, rfl⟩ : ∃ tag, args = [tag] := by
      match args, h with
      | [tag], _ => exact ⟨tag, rfl⟩
    by_cases he : n.type = NType.element
    · by_cases hm : matchElementName n tag
      · simp [nodeCheck, nodeMatches, he, hm]
      · simp [nodeCheck, nodeMatches, he, hm]
    · simp [nodeCheck, nodeMatches, he]
  · obtain ⟨tag, a1, a2, rfl⟩ : ∃ tag a1 a2, args = [tag, a1, a2] := by
      match args, h with
      | [tag, a1, a2], _ => exact ⟨tag, a1, a2, rfl⟩
    by_cases he : n.type = NType.element
    · by_cases hm : matchElementName n tag
      · simp [nodeCheck, nodeMatches, he, hm, attrLoopOnce_eq_any]
      · simp [nodeCheck, nodeMatches, he, hm]
    · simp [nodeCheck, nodeMatches, he]

mutual
theorem findOnce_eq_head (n : HNode) (args : List String) (strict : Bool)
    (h : args.length = 1 ∨ args.length = 3) :
    findOnce n args true strict =
      .ok (((preorder n).filter (fun m => nodeMatches m args strict)).head?) := by
  cases n with
  | mk t d a cs =>
    rw [findOnce]
    simp only [if_true]
    rw [nodeCheck_eq_nodeMatches _ _ _ h]
    by_cases hm : nodeMatches (.mk t d a cs) args strict
    · simp [hm, preorder, List.filter_cons]
    · simp [hm, preorder, List.filter_cons, findOnceList_eq_head cs args strict h]

theorem findOnceList_eq_head (cs : HForest) (args : List String) (strict : Bool)
    (h : args.length = 1 ∨ args.length = 3) :
    findOnceList cs args strict =
      .ok (((preorderList cs).filter (fun m => nodeMatches m args strict)).head?) := by
  cases cs with
  | nil => simp [findOnceList, preorderList]
  | cons c rest =>
    rw [findOnceList, preorderList, List.filter_append]
    rw [findOnce_eq_head c args strict h]
    cases hfc : (preorder c).filter (fun m => nodeMatches m args strict) with
    | nil => simp [hfc, findOnceList_eq_head rest args strict h]
    | cons x xs => simp [hfc]
end

/-- C3: for a well-formed query (a tag alone, or a tag with one
attribute name/value pair), the single-result search returns exactly the
head of the document-order (pre-order depth-first) list of matching
proper descendants: a node is tested before its descendants and a
subtree is exhausted before the next sibling, and everything after the
first match is discarded.  At the wrapper level, Find (and FindStrict)
wraps that first match when one exists. -/
theorem find_returns_first_match_in_document_order (args : List String) (strict : Bool)
    (h : args.length = 1 ∨ args.length = 3) :
    (∀ n, findOnce n args false strict = .ok ((docMatches n args strict).head?)) ∧
    (strict = false → ∀ r n m, r.Node = some n →
        (docMatches n args strict).head? = some m →
        Root.Find r args = .ok ⟨some m, m.data, none⟩) ∧
    (strict = true → ∀ r n m, r.Node = some n →
        (docMatches n args strict).head? = some m →
        Root.FindStrict r args = .ok ⟨some m, m.data, none⟩) := by
  have hbase : ∀ n, findOnce n args false strict = .ok ((docMatches n args strict).head?) := by
    intro n
    cases n with
    | mk t d a cs =>
      rw [findOnce]
      simp only [Bool.false_eq_true, if_false]
      rw [docMatches, properDescendants, HNode.children]
      exact findOnceList_eq_head cs args strict h
  refine ⟨hbase, ?_, ?_⟩
  · rintro rfl r n m hr hm
    rw [Root.Find, hr]
    simp only [hbase n, hm]
  · rintro rfl r n m hr hm
    rw [Root.FindStrict, hr]
    simp only [hbase n, hm]

/-- C3 witness: on a document with two divs the first one in document
order is returned. -/
theorem find_returns_first_match_in_document_order_witness :
    Root.Find
        ⟨some (.mk .element "html" []
          (.cons (.mk .element "div" [⟨"id", "0"⟩] .nil)
            (.cons (.mk .element "div" [⟨"id", "1"⟩] .nil) .nil))), "html", none⟩
        ["div"] =
      .ok ⟨some (.mk .element "div" [⟨"id", "0"⟩] .nil), "div", none⟩ :=
  (find_returns_first_match_in_document_order ["div"] false (Or.inl rfl)).2.1 rfl
    ⟨some (.mk .element "html" []
      (.cons (.mk .element "div" [⟨"id", "0"⟩] .nil)
        (.cons (.mk .element "div" [⟨"id", "1"⟩] .nil) .nil))), "html", none⟩
    (.mk .element "html" []
      (.cons (.mk .element "div" [⟨"id", "0"⟩] .nil)
        (.cons (.mk .element "div" [⟨"id", "1"⟩] .nil) .nil)))
    (.mk .element "div" [⟨"id", "0"⟩] .nil) rfl rfl

/-- C4: loose comparison holds exactly when the constraint value equals
one of the whitespace-separated fields of the attribute value (the
attribute name being equal), strict comparison exactly when the whole
value string is equal; concretely, value "a b c" loosely matches "b" and
not "d", and strictly matches "a b c" but neither "c b a" nor "a b". -/
theorem attribute_comparison_loose_tokens_strict_exact :
    (∀ attr aname value, attributeContainsValue attr aname value = true ↔
        (attr.key = aname ∧ value ∈ goFields attr.val)) ∧
    (∀ attr aname value, attributeAndValueEquals attr aname value = true ↔
        (attr.key = aname ∧ attr.val = value)) ∧
    attributeContainsValue ⟨"class", "a b c"⟩ "class" "b" = true ∧
    attributeContainsValue ⟨"class", "a b c"⟩ "class" "d" = false ∧
    attributeAndValueEquals ⟨"class", "a b c"⟩ "class" "a b c" = true ∧
    attributeAndValueEquals ⟨"class", "a b c"⟩ "class" "c b a" = false ∧
    attributeAndValueEquals ⟨"class", "a b c"⟩ "class" "a b" = false := by
  refine ⟨?_, ?_, by decide, by decide, by decide, by decide, by decide⟩
  · intro attr aname value
    by_cases hk : attr.key = aname
    · simp [attributeContainsValue, hk, List.any_eq_true]
    · simp [attributeContainsValue, hk]
  · intro attr aname value
    simp [attributeAndValueEquals]

/-- C5: findAllofem appends a node once per qualifying attribute pair
rather than once per node: a div carrying two class attributes that both
contain the token a is returned twice by FindAll, and the collection
reports Len 2 for the single matching element. -/
theorem findAll_duplicates_node_with_two_qualifying_attrs :
    findAllofem
        (.mk .element "html" []
          (.cons (.mk .element "div" [⟨"class", "a"⟩, ⟨"class", "a b"⟩] .nil) .nil))
        ["div", "class", "a"] false =
      .ok [.mk .element "div" [⟨"class", "a"⟩, ⟨"class", "a b"⟩] .nil,
        .mk .element "div" [⟨"class", "a"⟩, ⟨"class", "a b"⟩] .nil] ∧
    Root.FindAll
        ⟨some (.mk .element "html" []
          (.cons (.mk .element "div" [⟨"class", "a"⟩, ⟨"class", "a b"⟩] .nil) .nil)),
          "html", none⟩
        ["div", "class", "a"] =
      .ok ⟨[⟨some (.mk .element "div" [⟨"class", "a"⟩, ⟨"class", "a b"⟩] .nil), "div", none⟩,
        ⟨some (.mk .element "div" [⟨"class", "a"⟩, ⟨"class", "a b"⟩] .nil), "div", none⟩],
        2, none⟩ :=
  ⟨rfl, rfl⟩

/-- C6: no malformed-query error exists in the code (the error kind
enumeration has no such member).  With 2 arguments the candidate test
reads args index 2 inside the attribute loop, an index-out-of-range
panic as soon as a matching candidate with an attribute is visited; with
4 or more arguments every candidate test falls through, so the search
silently reports the ordinary element-not-found error. -/
theorem query_arg_count_panics_or_silently_fails :
    findOnce
        (.mk .element "html" []
          (.cons (.mk .element "div" [⟨"class", "x"⟩] .nil) .nil))
        ["div", "class"] false false = .error .indexOutOfRange ∧
    findAllofem
        (.mk .element "html" []
          (.cons (.mk .element "div" [⟨"class", "x"⟩] .nil) .nil))
        ["div", "class"] false = .error .indexOutOfRange ∧
    findOnce
        (.mk .element "html" []
          (.cons (.mk .element "div" [⟨"class", "x"⟩] .nil) .nil))
        ["div", "class", "x", "extra"] false false = .ok none ∧
    Root.Find
        ⟨some (.mk .element "html" []
          (.cons (.mk .element "div" [⟨"class", "x"⟩] .nil) .nil)), "html", none⟩
        ["div", "class", "x", "extra"] =
      .ok ⟨none, "",
        some ⟨.ErrElementNotFound, "given element and attriabutes not found"⟩⟩ :=
  ⟨rfl, rfl, rfl, rfl⟩

/-- C7: Text does not scan the children for the first non-whitespace
text child: the recursive calls of its closure are discarded, and the
fall-through returns k.Data of the first child k whenever k has a next
sibling and k.Data is not whitespace-only.  On a list item whose first
child is an element followed by a text child, Text yields the element's
tag name; on a whitespace text child followed by a non-whitespace text
child it yields the whitespace.  (On the spec's own example, text first,
it agrees.) -/
theorem text_returns_first_child_data_not_first_text :
    Root.Text
        ⟨some (.mk .element "li" []
          (.cons (.mk .element "a" [] (.cons (.mk .text "x" [] .nil) .nil))
            (.cons (.mk .text " text " [] .nil) .nil))), "li", none⟩ = .ok "a" ∧
    Root.Text
        ⟨some (.mk .element "li" []
          (.cons (.mk .text "   " [] .nil)
            (.cons (.mk .text "hello" [] .nil) .nil))), "li", none⟩ = .ok "   " ∧
    Root.Text
        ⟨some (.mk .element "li" []
          (.cons (.mk .text "To a " [] .nil)
            (.cons (.mk .element "a" [] (.cons (.mk .text "JSP page" [] .nil) .nil))
              (.cons (.mk .text " right?" [] .nil) .nil)))), "li", none⟩ = .ok "To a " :=
  ⟨rfl, rfl, rfl⟩

/-- C1: invoking a query method on a result that already carries an
error does not short-circuit: the nil Node pointer is passed into the
search, whose child loop dereferences it — a nil-pointer panic, not the
original error. -/
theorem find_on_errored_result_panics :
    Root.Find
        ⟨none, "", some ⟨.ErrElementNotFound, "given element and attriabutes not found"⟩⟩
        ["anything"] = .error .nilDeref ∧
    Root.FindAll
        ⟨none, "", some ⟨.ErrElementNotFound, "given element and attriabutes not found"⟩⟩
        ["anything"] = .error .nilDeref ∧
    Root.FindStrict
        ⟨none, "", some ⟨.ErrElementNotFound, "given element and attriabutes not found"⟩⟩
        ["anything"] = .error .nilDeref :=
  ⟨rfl, rfl, rfl⟩

/-- C8: the error kinds actually returned: FindPrevSibling,
FindNextElementSibling and FindPrevElementSibling all wrap
ErrNoNextSibling on failure (not the NoPreviousSibling,
NoNextElementSibling, NoPreviousElementSibling kinds), and FindAllStrict
wraps the singular ErrElementNotFound on an empty result (only FindAll
uses ErrElementsNotFound). -/
theorem sibling_and_findallstrict_error_kinds :
    (FindPrevSibling .nil).Error =
      some ⟨.ErrNoNextSibling, "no previous sibling found"⟩ ∧
    (FindNextElementSibling .nil).Error =
      some ⟨.ErrNoNextSibling, "no next element sibling found"⟩ ∧
    (FindPrevElementSibling .nil).Error =
      some ⟨.ErrNoNextSibling, "no previous element sibling found"⟩ ∧
    Root.FindAllStrict ⟨some (.mk .element "html" [] .nil), "html", none⟩ ["div"] =
      .ok ⟨[], 0, some ⟨.ErrElementNotFound,
        "element \x60div\x60 with attributes \x60\x60 not found"⟩⟩ ∧
    Root.FindAll ⟨some (.mk .element "html" [] .nil), "html", none⟩ ["div"] =
      .ok ⟨[], 0, some ⟨.ErrElementsNotFound, "no elements or attriabutes found"⟩⟩ :=
  ⟨rfl, rfl, rfl, rfl, rfl⟩

theorem singleInvariant_ok (n : HNode) (v : String) :
    singleInvariant ⟨some n, v, none⟩ := by
  simp [singleInvariant]

theorem singleInvariant_err (v : String) (e : OwlError) :
    singleInvariant ⟨none, v, some e⟩ := by
  simp [singleInvariant]

theorem childrenFold_error (cs : HForest) (acc : Roots) :
    (childrenFold cs acc).Error = acc.Error := by
  cases cs with
  | nil => rfl
  | cons c rest =>
    rw [childrenFold]
    exact childrenFold_error rest _

theorem childrenFold_items (cs : HForest) (acc : Roots)
    (hacc : ∀ x ∈ acc.Roots, singleInvariant x) :
    ∀ x ∈ (childrenFold cs acc).Roots, singleInvariant x := by
  cases cs with
  | nil => exact hacc
  | cons c rest =>
    rw [childrenFold]
    refine childrenFold_items rest _ ?_
    intro x hx
    rw [List.mem_append] at hx
    rcases hx with hx | hx
    · exact hacc x hx
    · rw [List.mem_singleton] at hx
      subst hx
      exact singleInvariant_ok _ _

theorem findNextElementSibling_inv (next : HForest) :
    singleInvariant (FindNextElementSibling next) := by
  cases next with
  | nil => exact singleInvariant_err _ _
  | cons s rest =>
    rw [FindNextElementSibling]
    by_cases hs : s.type = NType.element
    · rw [if_pos hs]
      exact singleInvariant_ok _ _
    · rw [if_neg hs]
      exact findNextElementSibling_inv rest

theorem findPrevElementSibling_inv (prev : HForest) :
    singleInvariant (FindPrevElementSibling prev) := by
  cases prev with
  | nil => exact singleInvariant_err _ _
  | cons s rest =>
    rw [FindPrevElementSibling]
    by_cases hs : s.type = NType.element
    · rw [if_pos hs]
      exact singleInvariant_ok _ _
    · rw [if_neg hs]
      exact findPrevElementSibling_inv rest

/-- C9 counterexample: Children of a childless node returns the empty
collection with a nil error, refuting the claimed error-iff-empty
invariant for every collection result. -/
theorem children_empty_collection_has_no_error :
    Root.Children ⟨some (.mk .element "div" [] .nil), "div", none⟩ =
      .ok ⟨[], 0, none⟩ ∧
    ¬ collInvariant ⟨[], 0, none⟩ :=
  ⟨rfl, by simp [collInvariant]⟩

/-- C9 amended: every single result of Find, FindStrict, the FindAll
and FindAllStrict collections, the Children items and the four sibling
operations holds exactly one of node or error; the error-iff-empty
collection invariant holds for FindAll and FindAllStrict, while the
Error field of Children is always nil (so a childless node yields an
empty collection with no error). -/
theorem query_result_invariants_amended :
    (∀ r args r2, Root.Find r args = .ok r2 → singleInvariant r2) ∧
    (∀ r args r2, Root.FindStrict r args = .ok r2 → singleInvariant r2) ∧
    (∀ r args rs, Root.FindAll r args = .ok rs →
        collInvariant rs ∧ ∀ x ∈ rs.Roots, singleInvariant x) ∧
    (∀ r args rs, Root.FindAllStrict r args = .ok rs →
        collInvariant rs ∧ ∀ x ∈ rs.Roots, singleInvariant x) ∧
    (∀ r rs, Root.Children r = .ok rs →
        rs.Error = none ∧ ∀ x ∈ rs.Roots, singleInvariant x) ∧
    (∀ next, singleInvariant (FindNextSibling next)) ∧
    (∀ prev, singleInvariant (FindPrevSibling prev)) ∧
    (∀ next, singleInvariant (FindNextElementSibling next)) ∧
    (∀ prev, singleInvariant (FindPrevElementSibling prev)) := by
  refine ⟨?_, ?_, ?_, ?_, ?_, ?_, ?_, findNextElementSibling_inv, findPrevElementSibling_inv⟩
  · intro r args r2 h
    rw [Root.Find] at h
    cases hN : r.Node with
    | none => rw [hN] at h; simp at h
    | some n =>
      rw [hN] at h
      cases hf : findOnce n args false false with
      | error p => simp [hf] at h
      | ok o =>
        cases o with
        | none =>
          simp only [hf, Except.ok.injEq] at h
          exact h ▸ singleInvariant_err _ _
        | some temp =>
          simp only [hf, Except.ok.injEq] at h
          exact h ▸ singleInvariant_ok _ _
  · intro r args r2 h
    rw [Root.FindStrict] at h
    cases hN : r.Node with
    | none => rw [hN] at h; simp at h
    | some n =>
      rw [hN] at h
      cases hf : findOnce n args false true with
      | error p => simp [hf] at h
      | ok o =>
        cases o with
        | none =>
          simp only [hf, Except.ok.injEq] at h
          exact h ▸ singleInvariant_err _ _
        | some temp =>
          simp only [hf, Except.ok.injEq] at h
          exact h ▸ singleInvariant_ok _ _
  · intro r args rs h
    rw [Root.FindAll] at h
    cases hN : r.Node with
    | none => rw [hN] at h; simp at h
    | some n =>
      rw [hN] at h
      cases hf : findAllofem n args false with
      | error p => simp [hf] at h
      | ok temp =>
        simp only [hf] at h
        by_cases hlen : temp.length = 0
        · simp only [hlen, if_true, Except.ok.injEq] at h
          subst h
          refine ⟨by simp [collInvariant], by simp⟩
        · simp only [hlen, if_false, Except.ok.injEq] at h
          subst h
          constructor
          · have htemp : temp ≠ [] := fun he => hlen (by rw [he]; rfl)
            simp [collInvariant, htemp]
          · intro x hx
            rw [List.mem_map] at hx
            obtain ⟨t, _, rfl⟩ := hx
            exact singleInvariant_ok _ _
  · intro r args rs h
    rw [Root.FindAllStrict.eq_def] at h
    cases hN : r.Node with
    | none => rw [hN] at h; simp at h
    | some n =>
      rw [hN] at h
      cases hf : findAllofem n args true with
      | error p => simp [hf] at h
      | ok temp =>
        simp only [hf] at h
        by_cases hlen : temp.length = 0
        · simp only [hlen, if_true] at h
          cases hargs : args with
          | nil => rw [hargs] at h; simp at h
          | cons a0 rest =>
            rw [hargs] at h
            simp only [Except.ok.injEq] at h
            subst h
            refine ⟨by simp [collInvariant], by simp⟩
        · simp only [hlen, if_false, Except.ok.injEq] at h
          subst h
          constructor
          · have htemp : temp ≠ [] := fun he => hlen (by rw [he]; rfl)
            simp [collInvariant, htemp]
          · intro x hx
            rw [List.mem_map] at hx
            obtain ⟨t, _, rfl⟩ := hx
            exact singleInvariant_ok _ _
  · intro r rs h
    rw [Root.Children] at h
    cases hN : r.Node with
    | none => rw [hN] at h; simp at h
    | some n =>
      rw [hN] at h
      simp only [Except.ok.injEq] at h
      subst h
      refine ⟨childrenFold_error _ _, childrenFold_items _ _ ?_⟩
      intro x hx
      simp at hx
  · intro next
    cases next with
    | nil => exact singleInvariant_err _ _
    | cons s rest => exact singleInvariant_ok _ _
  · intro prev
    cases prev with
    | nil => exact singleInvariant_err _ _
    | cons s rest => exact singleInvariant_ok _ _

/-- C9 witness: a successful Find yields a wrapper with a node and a nil
error. -/
theorem query_result_invariants_amended_witness :
    singleInvariant ⟨some (.mk .element "div" [] .nil), "div", none⟩ :=
  query_result_invariants_amended.1
    ⟨some (.mk .element "html" [] (.cons (.mk .element "div" [] .nil) .nil)), "html", none⟩
    ["div"] ⟨some (.mk .element "div" [] .nil), "div", none⟩ rfl

/-- C10: First and Last index positions 0 and Len-1 of the sequence with
no emptiness guard: on every empty collection (such as the one a FindAll
that found nothing returns) both accesses are out of bounds, and on a
well-formed non-empty collection both return an element. -/
theorem first_last_unguarded_index_access :
    (∀ rs : Roots, rs.Roots = [] → Roots.First rs = .error .indexOutOfRange ∧
        Roots.Last rs = .error .indexOutOfRange) ∧
    (∀ rs : Roots, rs.Roots ≠ [] → rs.Len = rs.Roots.length →
        (∃ x, Roots.First rs = .ok x) ∧ (∃ x, Roots.Last rs = .ok x)) := by
  constructor
  · intro rs hemp
    constructor
    · rw [Roots.First, hemp]
      simp [List.get?_nil]
    · rw [Roots.Last]
      by_cases hneg : rs.Len - 1 < 0
      · rw [if_pos hneg]
      · rw [if_neg hneg, hemp]
        simp [List.get?_nil]
  · intro rs hne hlen
    constructor
    · cases hr : rs.Roots with
      | nil => exact absurd hr hne
      | cons x xs => exact ⟨x, by rw [Roots.First, hr]; simp [List.get?_cons_zero]⟩
    · have hlenpos : 0 < rs.Roots.length := List.length_pos.mpr hne
      have hnotneg : ¬ rs.Len - 1 < 0 := by
        rw [hlen]
        omega
      have hidx : (rs.Len - 1).toNat < rs.Roots.length := by
        rw [hlen]
        omega
      rw [Roots.Last, if_neg hnotneg, List.get?_eq_get hidx]
      exact ⟨_, rfl⟩

/-- C10 witness: the empty collection errors on both accesses, a
one-element collection returns elements. -/
theorem first_last_unguarded_index_access_witness :
    (Roots.First ⟨[], 0, none⟩ = .error .indexOutOfRange ∧
      Roots.Last ⟨[], 0, none⟩ = .error .indexOutOfRange) ∧
    ((∃ x, Roots.First ⟨[⟨none, "", none⟩], 1, none⟩ = .ok x) ∧
      (∃ x, Roots.Last ⟨[⟨none, "", none⟩], 1, none⟩ = .ok x)) :=
  ⟨first_last_unguarded_index_access.1 ⟨[], 0, none⟩ rfl,
    first_last_unguarded_index_access.2 ⟨[⟨none, "", none⟩], 1, none⟩ (by simp) rfl⟩

end Owl
